import Mathlib

/-!
Verification of the freezer concatenation utilities (`core/rawdb/freezer_utils.go`).

The development shallowly embeds the file's functions over a flat filesystem
model (`FS`): `copyFrom`, `readIndex`, the table-level `concat` and the
store-level `Concat`.  Machine integers (`uint32` segment numbers, `uint64`
offsets) are modelled as `Nat`; no claim under study exercises wraparound, and
where binary encoding truncates a value the truncation (`% 2 ^ 32`) is explicit
in the byte codec.  The buffered index writer (`bufio.NewWriter`, 4096-byte
buffer) is modelled faithfully, since the flushing behaviour is observable in
the error paths.
-/

set_option maxRecDepth 8000

namespace FreezerSpec

/-- A flat model of the filesystem: each path maps to the byte content of the
file stored there (`none` when no file exists at that path).  Bytes are `Nat`s;
contents written by the program are always `< 256`. -/
def FS : Type := String → Option (List Nat)

/-- Model of `os.Rename(src, dst)`: fails when the source path does not exist,
otherwise moves the content at `src` onto `dst`, overwriting `dst`.
`os.Rename` with `src = dst` succeeds and leaves the file in place. -/
def fsRename (fs : FS) (src dst : String) : Except String FS :=
  match fs src with
  | none => Except.error ("rename " ++ src ++ " " ++ dst ++ ": no such file")
  | some c => Except.ok fun q => if q = dst then some c else if q = src then none else fs q

/-- Append `bytes` at the end of the file at `path`: the write performed through
a handle opened for append (creating the file if absent). -/
def appendFile (fs : FS) (path : String) (bytes : List Nat) : FS :=
  fun q => if q = path then some ((fs path).getD [] ++ bytes) else fs q

/-- Big-endian byte string of width `w` for the value `v`, truncating `v` to
`w` bytes exactly as the fixed-width binary put does. -/
def beBytes : Nat → Nat → List Nat
  | 0, _ => []
  | w + 1, v => (v / 256 ^ w) % 256 :: beBytes w v

/-- Big-endian value of a byte string. -/
def fromBE : List Nat → Nat
  | [] => 0
  | b :: bs => b * 256 ^ bs.length + fromBE bs

/-- Modelled from the spec: the fixed-width index record
`{segmentNumber, offset}` (§4.3).  The codec itself lives outside the file
under study; the spec leaves the exact widths open (§9) and suggests 32-bit
segment number and 32-bit offset, which we fix here. -/
structure indexEntry where
  filenum : Nat
  offset : Nat
deriving DecidableEq

/-- Modelled from the spec: the fixed record width of the index codec,
4 bytes of segment number plus 4 bytes of offset. -/
def indexEntrySize : Nat := 8

/-- Modelled from the spec: `entry.append(nil)`, the big-endian fixed-width
encoding of an index record. -/
def indexEntry.append (e : indexEntry) : List Nat :=
  beBytes 4 e.filenum ++ beBytes 4 e.offset

/-- Modelled from the spec: `entry.unmarshalBinary(buffer)`, decoding one
fixed-width record. -/
def unmarshalBinary (bs : List Nat) : indexEntry :=
  ⟨fromBE (bs.take 4), fromBE ((bs.drop 4).take 4)⟩

/-- Encoding of a whole index: the flat concatenation of the fixed-width
records, with no separators (§4.3). -/
def encodeIndex : List indexEntry → List Nat
  | [] => []
  | e :: es => e.append ++ encodeIndex es

/-- The sequence of records stored in an index file's bytes: record `i` sits at
byte offset `8 * i`; a trailing short read terminates the sequence. -/
def entriesOf : List Nat → List indexEntry
  | b0 :: b1 :: b2 :: b3 :: b4 :: b5 :: b6 :: b7 :: rest =>
    unmarshalBinary [b0, b1, b2, b3, b4, b5, b6, b7] :: entriesOf rest
  | _ => []

/-- Modelled from the spec and the external surface (§6): the fields of the
table collaborator that the code under study uses — the root directory
`t.path`, the open index file's path `t.index.Name()`, the oldest and newest
segment numbers `tailId`/`headId`, and the table-owned deterministic segment
naming function `t.fileName`. -/
structure freezerTable where
  path : String
  indexPath : String
  tailId : Nat
  headId : Nat
  fileName : Nat → String

/-- `readIndex(t, i)`: a positioned `ReadAt` of `indexEntrySize` bytes at
offset `i * indexEntrySize` of the source index, decoded with
`unmarshalBinary`; a short read returns `io.EOF`, modelled as `none`.
`content` is the byte content of the table's open index file. -/
def readIndex (content : List Nat) (i : Nat) : Option indexEntry :=
  if 8 * i + 8 ≤ content.length then
    some (unmarshalBinary ((content.drop (8 * i)).take 8))
  else none

/-- The default buffer size of `bufio.NewWriter`. -/
def bufWriterSize : Nat := 4096

/-- The running state of `concat`: the two segment-number counters, the bytes
currently buffered in the `bufio.Writer` wrapping the destination index handle,
and the filesystem. -/
structure ConcatSt where
  toFileId : Nat
  fromFileId : Nat
  buf : List Nat
  fs : FS

/-- One `bufio.Writer.Write` of `p` (with `p.length ≤ bufWriterSize`, which
holds for the 8-byte records written by `concat`): the bytes are buffered if
they fit, otherwise the buffer is topped up to `bufWriterSize`, flushed to the
destination index file, and the remainder buffered. -/
def bwWrite (toIdx : String) (s : ConcatSt) (p : List Nat) : ConcatSt :=
  if s.buf.length + p.length ≤ bufWriterSize then { s with buf := s.buf ++ p }
  else
    { s with
      fs := appendFile s.fs toIdx (s.buf ++ p.take (bufWriterSize - s.buf.length)),
      buf := p.drop (bufWriterSize - s.buf.length) }

/-- `bufio.Writer.Flush`: writes the buffered bytes to the destination index
file (a no-op when nothing is buffered). -/
def bwFlush (toIdx : String) (s : ConcatSt) : ConcatSt :=
  if s.buf = [] then s else { s with fs := appendFile s.fs toIdx s.buf, buf := [] }

/-- One iteration of `concat`'s loop body on the record `e` just read: the
segment-boundary block (rename of the completed source segment, contiguity
check) followed by the re-encoded record being written to the buffered
destination index writer.  Returns the new state, with `some msg` when the
iteration returned an error. -/
def concatStep (toT fr : freezerTable) (s : ConcatSt) (e : indexEntry) :
    ConcatSt × Option String :=
  if e.filenum ≠ s.fromFileId then
    let toFileId := s.toFileId + 1
    match fsRename s.fs (fr.fileName s.fromFileId) (toT.fileName toFileId) with
    | Except.error m => (s, some m)
    | Except.ok fs1 =>
      if s.fromFileId ≠ e.filenum + 1 then
        ({ s with toFileId := toFileId, fs := fs1 },
          some ("unexpected jump from " ++ toString e.filenum ++ " to " ++
            toString s.fromFileId))
      else
        let s1 : ConcatSt :=
          { toFileId := toFileId, fromFileId := e.filenum, buf := s.buf, fs := fs1 }
        (bwWrite toT.indexPath s1 ({ e with filenum := s1.toFileId }).append, none)
  else
    (bwWrite toT.indexPath s ({ e with filenum := s.toFileId }).append, none)

/-- `concat`'s read loop: reads source records `0, 1, 2, …` until the first
short read (`io.EOF`, the normal termination), stopping early with the state at
that moment when an iteration errors. -/
def concatLoop (toT fr : freezerTable) : List indexEntry → ConcatSt → ConcatSt × Option String
  | [], s => (s, none)
  | e :: es, s =>
    match concatStep toT fr s e with
    | (s1, none) => concatLoop toT fr es s1
    | (s1, some m) => (s1, some m)

/-- `concat(to, from)`: opens the destination index for append (creating it if
absent), drains the source index through the buffered writer while renaming
completed source segments into the destination's numbering, then flushes,
closes and performs the final rename of the last source segment.  Returns the
resulting filesystem together with `some msg` on error. -/
def concat (toT fr : freezerTable) (fs : FS) : FS × Option String :=
  let fs0 : FS := fun q => if q = toT.indexPath then some ((fs toT.indexPath).getD []) else fs q
  let fromContent := (fs fr.indexPath).getD []
  let s0 : ConcatSt := ⟨toT.headId + 1, fr.tailId, [], fs0⟩
  match concatLoop toT fr (entriesOf fromContent) s0 with
  | (s, some m) => (s.fs, some m)
  | (s, none) =>
    let s1 := bwFlush toT.indexPath s
    match fsRename s1.fs (fr.fileName s1.fromFileId) (toT.fileName s1.toFileId) with
    | Except.error m => (s1.fs, some m)
    | Except.ok fs2 => (fs2, none)

/-- The largest `uint64` offset that survives the cast to `int64` in the seek:
an offset of `2 ^ 63` or more becomes negative and the seek fails. -/
def maxInt64 : Nat := 2 ^ 63

/-- The fallible steps of `copyFrom`, in program order, used to inject an I/O
failure at a chosen point: temp-file creation, the `before` callback, opening
the source, the seek, the copy, closing the temp file, and the final rename. -/
inductive CopyStep
  | tempCreate | beforeCb | srcOpen | seek | copy | tempClose | rename
deriving DecidableEq

/-- `copyFrom(srcPath, destPath, offset, before)`: creates a fresh temp file
`tmpName` next to `destPath`, lets the `before` callback write a prefix into
it (`before = some bytes` models a callback writing `bytes`; `none` models a
nil callback), copies the source content from `offset` on, closes both files
and atomically renames the temp file onto `destPath`.  The deferred cleanup
removes the temp file on every path; after a successful rename the removal
finds nothing and is ignored.  `failAt` injects an I/O error at the given
step; a seek with `offset ≥ 2 ^ 63` fails naturally (the `uint64` offset is
cast to `int64` and becomes negative). -/
def copyFrom (fs : FS) (srcPath destPath : String) (offset : Nat)
    (before : Option (List Nat)) (tmpName : String) (failAt : Option CopyStep) :
    FS × Option String :=
  if failAt = some CopyStep.tempCreate then (fs, some "tempfile create") else
  let fs1 : FS := fun q => if q = tmpName then some [] else fs q
  let cleanup : FS → FS := fun g q => if q = tmpName then none else g q
  if failAt = some CopyStep.beforeCb then (cleanup fs1, some "before callback") else
  let fs2 : FS := fun q => if q = tmpName then some (before.getD []) else fs q
  match fs2 srcPath, failAt with
  | none, _ => (cleanup fs2, some "open source")
  | some _, some CopyStep.srcOpen => (cleanup fs2, some "open source")
  | some srcContent, _ =>
    if failAt = some CopyStep.seek ∨ maxInt64 ≤ offset then (cleanup fs2, some "seek") else
    if failAt = some CopyStep.copy then (cleanup fs2, some "copy") else
    let fs3 : FS := fun q =>
      if q = tmpName then some (before.getD [] ++ srcContent.drop offset) else fs2 q
    if failAt = some CopyStep.tempClose then (cleanup fs3, some "close temp") else
    if failAt = some CopyStep.rename then (cleanup fs3, some "rename") else
    match fsRename fs3 tmpName destPath with
    | Except.error m => (cleanup fs3, some m)
    | Except.ok fs4 => (cleanup fs4, none)

/-- Modelled from the spec and the external surface (§6): a freezer store is a
mapping from table name to table, all rooted at one directory.  The Go `map`
is embedded as an association list whose order fixes one possible iteration
order of `range to.tables`. -/
structure freezer where
  tables : List (String × freezerTable)

/-- Lookup of a table by name in a store's mapping. -/
def lookupTable : List (String × freezerTable) → String → Option freezerTable
  | [], _ => none
  | (n, t) :: rest, name => if n = name then some t else lookupTable rest name

/-- The per-table loop of `Concat`: for each destination table name, the same
name is looked up in the source store (failing with the missing-table error if
absent) and the two tables are concatenated, wrapping any table-level error
with the table's name. -/
def concatTables (fr : freezer) : List (String × freezerTable) → FS → FS × Option String
  | [], fs => (fs, none)
  | (name, totab) :: rest, fs =>
    match lookupTable fr.tables name with
    | none => (fs, some ("table " ++ name ++ " not in source freezer"))
    | some fromtab =>
      match concat totab fromtab fs with
      | (fs1, some e) => (fs1, some ("concatenating tables " ++ name ++ ": " ++ e))
      | (fs1, none) => concatTables fr rest fs1

/-- `Concat(to, from)`: merges every destination table with its like-named
source table, then promotes the directories — the source root (read off the
`headers` table) is renamed aside with the fixed `".old"` suffix and the
destination root is renamed to the source's original path.  The two promotion
renames are unchecked: their failures are discarded and `Concat` still returns
success.  Looking up a missing `headers` table in Go dereferences a nil
pointer; that crash is modelled as a distinguished error. -/
def Concat (toF fr : freezer) (fs : FS) : FS × Option String :=
  match concatTables fr toF.tables fs with
  | (fs1, some e) => (fs1, some e)
  | (fs1, none) =>
    match lookupTable toF.tables "headers", lookupTable fr.tables "headers" with
    | some toh, some frh =>
      let toPath := toh.path
      let fromPath := frh.path
      let fs2 := ((fsRename fs1 fromPath (fromPath ++ ".old")).toOption).getD fs1
      let fs3 := ((fsRename fs2 toPath fromPath).toOption).getD fs2
      (fs3, none)
    | _, _ => (fs1, some "panic: nil freezer table")

/-! ### Concrete fixtures used by the closed theorems and witnesses -/

/-- A destination table with segments `[0..5]` (`tailId 0`, `headId 5`). -/
def toDst6 : freezerTable :=
  ⟨"todir", "to.ridx", 0, 5, fun n => "todir/data-" ++ toString n⟩

/-- A source table with contiguous segments `[2..4]`. -/
def srcC1 : freezerTable :=
  ⟨"frdir", "fr.ridx", 2, 4, fun n => "frdir/data-" ++ toString n⟩

/-- A filesystem holding the spec's concatenation example: destination index
with one item, source index with one item per segment `2`, `3`, `4`, and the
three source segment files. -/
def fsC1 : FS := fun p =>
  if p = "to.ridx" then some (encodeIndex [⟨0, 7⟩]) else
  if p = "fr.ridx" then some (encodeIndex [⟨2, 10⟩, ⟨3, 20⟩, ⟨4, 30⟩]) else
  if p = "frdir/data-2" then some [1] else
  if p = "frdir/data-3" then some [2] else
  if p = "frdir/data-4" then some [3] else
  none

/-- A destination table for the contiguity-check experiment. -/
def toDstC2 : freezerTable :=
  ⟨"t2", "t2.ridx", 0, 5, fun n => "t2/d" ++ toString n⟩

/-- A source table whose index ascends by exactly one segment, `7` to `8`. -/
def srcC2asc : freezerTable :=
  ⟨"f2a", "f2a.ridx", 7, 8, fun n => "f2a/d" ++ toString n⟩

def fsC2asc : FS := fun p =>
  if p = "t2.ridx" then some [] else
  if p = "f2a.ridx" then some (encodeIndex [⟨7, 1⟩, ⟨8, 2⟩]) else
  if p = "f2a/d7" then some [7] else
  if p = "f2a/d8" then some [8] else none

/-- A source table whose index descends by one segment, `7` to `6`. -/
def srcC2desc : freezerTable :=
  ⟨"f2b", "f2b.ridx", 7, 6, fun n => "f2b/d" ++ toString n⟩

def fsC2desc : FS := fun p =>
  if p = "t2.ridx" then some [] else
  if p = "f2b.ridx" then some (encodeIndex [⟨7, 1⟩, ⟨6, 2⟩]) else
  if p = "f2b/d7" then some [7] else
  if p = "f2b/d6" then some [6] else none

/-- A source table whose index jumps from segment `2` to segment `4`. -/
def srcC3 : freezerTable :=
  ⟨"f3", "f3.ridx", 2, 4, fun n => "f3/d" ++ toString n⟩

def fsC3 : FS := fun p =>
  if p = "to.ridx" then some (encodeIndex [⟨0, 7⟩]) else
  if p = "f3.ridx" then some (encodeIndex [⟨2, 5⟩, ⟨4, 6⟩]) else
  if p = "f3/d2" then some [1] else
  if p = "f3/d4" then some [3] else none

/-- A filesystem for the `copyFrom` witnesses: a source file and an unrelated
destination file. -/
def cfsW : FS := fun p =>
  if p = "s" then some [1, 2, 3, 4] else if p = "d0" then some [5] else none

/-- Witness store fixtures: a destination `headers` table… -/
def thW : freezerTable := ⟨"todirW", "toW.ridx", 0, 5, fun n => "todirW/d" ++ toString n⟩

/-- …a source `headers` table with a single (empty-index) segment… -/
def fhW : freezerTable := ⟨"frdirW", "frW.ridx", 3, 3, fun n => "frdirW/d" ++ toString n⟩

/-- …a destination `bodies` table with no source counterpart… -/
def tbodyW : freezerTable := ⟨"todirW", "toB.ridx", 0, 2, fun n => "todirW/b" ++ toString n⟩

/-- …and a source-only table absent from the destination store. -/
def xtraW : freezerTable := ⟨"frdirW", "frX.ridx", 0, 0, fun n => "frdirW/x" ++ toString n⟩

def toFW : freezer := ⟨[("headers", thW)]⟩

def toF7W : freezer := ⟨[("headers", thW), ("bodies", tbodyW)]⟩

def frFW : freezer := ⟨[("headers", fhW)]⟩

def frXW : freezer := ⟨[("extras", xtraW), ("headers", fhW)]⟩

/-- A filesystem for the store-level witnesses: both index files empty, one
source segment file, and no directory entries (so the promotion renames
fail). -/
def fsW : FS := fun p =>
  if p = "toW.ridx" then some [] else
  if p = "frW.ridx" then some [] else
  if p = "frdirW/d3" then some [9] else none

/-- A destination table for the frame-property witness; the naming function is
constant, which the table-owned naming contract allows and which keeps the
path-disjointness hypotheses decidable. -/
def toC9 : freezerTable := ⟨"todir9", "to9.ridx", 0, 5, fun _ => "todir9/seg"⟩

/-- A single-segment source table for the frame-property witness. -/
def frC9 : freezerTable := ⟨"frdir9", "fr9.ridx", 4, 4, fun _ => "frdir9/seg"⟩

def fsC9 : FS := fun p =>
  if p = "to9.ridx" then some (encodeIndex [⟨0, 7⟩]) else
  if p = "fr9.ridx" then some (encodeIndex [⟨4, 11⟩, ⟨4, 22⟩]) else
  if p = "frdir9/seg" then some [1, 2] else none

/-! ### Codec lemmas -/

theorem length_beBytes (w v : Nat) : (beBytes w v).length = w := by
  induction w generalizing v with
  | zero => simp [beBytes]
  | succ w ih => simp [beBytes, ih]

theorem fromBE_beBytes (w v : Nat) : fromBE (beBytes w v) = v % 256 ^ w := by
  induction w generalizing v with
  | zero => simp [beBytes, fromBE, Nat.mod_one]
  | succ w ih =>
    simp only [beBytes, fromBE, length_beBytes, ih]
    rw [pow_succ, Nat.mod_mul]
    ring

theorem length_entry_append (e : indexEntry) : e.append.length = 8 := by
  simp [indexEntry.append, length_beBytes]

theorem unmarshal_entry_append (e : indexEntry) :
    unmarshalBinary e.append = ⟨e.filenum % 2 ^ 32, e.offset % 2 ^ 32⟩ := by
  have h4 : (beBytes 4 e.filenum).length = 4 := length_beBytes 4 e.filenum
  have h4o : (beBytes 4 e.offset).length = 4 := length_beBytes 4 e.offset
  simp only [unmarshalBinary, indexEntry.append]
  rw [List.take_left' h4, List.drop_left' h4, List.take_of_length_le (Nat.le_of_eq h4o)]
  rw [fromBE_beBytes, fromBE_beBytes]
  norm_num

theorem entriesOf_append8 (bs rest : List Nat) (h : bs.length = 8) :
    entriesOf (bs ++ rest) = unmarshalBinary bs :: entriesOf rest := by
  rcases bs with _|⟨b0,_|⟨b1,_|⟨b2,_|⟨b3,_|⟨b4,_|⟨b5,_|⟨b6,_|⟨b7,_|⟨b8,bs⟩⟩⟩⟩⟩⟩⟩⟩⟩ <;>
    simp_all [entriesOf]

theorem entriesOf_encodeIndex (es : List indexEntry)
    (h : ∀ e ∈ es, e.filenum < 2 ^ 32 ∧ e.offset < 2 ^ 32) :
    entriesOf (encodeIndex es) = es := by
  induction es with
  | nil => simp [encodeIndex, entriesOf]
  | cons e es ih =>
    obtain ⟨f, o⟩ := e
    have he := h ⟨f, o⟩ (by simp)
    rw [encodeIndex, entriesOf_append8 _ _ (length_entry_append ⟨f, o⟩),
      unmarshal_entry_append ⟨f, o⟩, ih (fun x hx => h x (by simp [hx]))]
    have h1 : f % 2 ^ 32 = f := Nat.mod_eq_of_lt he.1
    have h2 : o % 2 ^ 32 = o := Nat.mod_eq_of_lt he.2
    simp only [h1, h2]

theorem entriesOf_short (bs : List Nat) (h : bs.length < 8) : entriesOf bs = [] := by
  rcases bs with _|⟨b0,_|⟨b1,_|⟨b2,_|⟨b3,_|⟨b4,_|⟨b5,_|⟨b6,_|⟨b7,bs⟩⟩⟩⟩⟩⟩⟩⟩ <;>
    first
    | rfl
    | (exfalso; simp only [List.length_cons] at h; omega)

theorem readIndex_eq_entriesOf :
    ∀ (bs : List Nat) (i : Nat), readIndex bs i = (entriesOf bs)[i]?
  | b0 :: b1 :: b2 :: b3 :: b4 :: b5 :: b6 :: b7 :: rest, 0 => by
    simp [readIndex, entriesOf]
  | b0 :: b1 :: b2 :: b3 :: b4 :: b5 :: b6 :: b7 :: rest, i + 1 => by
    have ih := readIndex_eq_entriesOf rest i
    simp only [entriesOf, List.getElem?_cons_succ]
    rw [← ih]
    have hd : (b0 :: b1 :: b2 :: b3 :: b4 :: b5 :: b6 :: b7 :: rest).drop (8 * (i + 1)) =
        rest.drop (8 * i) := by
      have h8 : 8 * (i + 1) = 8 + 8 * i := by omega
      rw [h8, ← List.drop_drop]
      rfl
    simp only [readIndex, hd, List.length_cons]
    by_cases h : 8 * i + 8 ≤ rest.length
    · rw [if_pos (by omega), if_pos h]
    · rw [if_neg (by omega), if_neg h]
  | [], i => by simp [readIndex, entriesOf]
  | [b0], i => by
    simp only [entriesOf, readIndex]
    rw [if_neg (by simp only [List.length_cons, List.length_nil]; omega)]
    simp
  | [b0, b1], i => by
    simp only [entriesOf, readIndex]
    rw [if_neg (by simp only [List.length_cons, List.length_nil]; omega)]
    simp
  | [b0, b1, b2], i => by
    simp only [entriesOf, readIndex]
    rw [if_neg (by simp only [List.length_cons, List.length_nil]; omega)]
    simp
  | [b0, b1, b2, b3], i => by
    simp only [entriesOf, readIndex]
    rw [if_neg (by simp only [List.length_cons, List.length_nil]; omega)]
    simp
  | [b0, b1, b2, b3, b4], i => by
    simp only [entriesOf, readIndex]
    rw [if_neg (by simp only [List.length_cons, List.length_nil]; omega)]
    simp
  | [b0, b1, b2, b3, b4, b5], i => by
    simp only [entriesOf, readIndex]
    rw [if_neg (by simp only [List.length_cons, List.length_nil]; omega)]
    simp
  | [b0, b1, b2, b3, b4, b5, b6], i => by
    simp only [entriesOf, readIndex]
    rw [if_neg (by simp only [List.length_cons, List.length_nil]; omega)]
    simp

/-! ### Claim theorems -/

/-- C1: the spec's concatenation example — destination table with contiguous
segments `[0..5]` and source table with contiguous segments `[2..4]` — is
claimed to succeed, merging the items and occupying new segments `6, 7, 8`.
On the code, `concat` instead fails at the first segment boundary of the
source (segment `2` to segment `3`) with the gap error `unexpected jump from
3 to 2`, because the operands of the contiguity comparison are swapped
(`fromFileId != entry.filenum+1` instead of `entry.filenum != fromFileId+1`);
the destination index receives none of the source records. -/
theorem concat_fails_on_contiguous_multisegment_source :
    (concat toDst6 srcC1 fsC1).2 = some "unexpected jump from 3 to 2" ∧
    (concat toDst6 srcC1 fsC1).1 "to.ridx" = some (encodeIndex [⟨0, 7⟩]) := by
  constructor <;> decide

/-- C2: the claim states the merge continues past a segment boundary exactly
when the new record's segment number equals `fromFileId + 1`.  The code does
the opposite: a source whose records ascend by exactly one segment (`7` then
`8`) is rejected with the gap error, while a source whose records descend by
one segment (`7` then `6`) — which can never occur in a valid table — passes
the check and the merge completes without error. -/
theorem concat_contiguity_check_reversed :
    (concat toDstC2 srcC2asc fsC2asc).2 = some "unexpected jump from 8 to 7" ∧
    (concat toDstC2 srcC2desc fsC2desc).2 = none := by
  constructor <;> decide

/-- C3 counterexample: a source index whose second record jumps from segment
`2` to segment `4` makes `concat` fail with the gap error, but the destination
index file on disk does not contain the translated record written before the
gap: that record (`{filenum 6, offset 5}`) is still sitting in the unflushed
4096-byte `bufio` buffer when `concat` returns, so the file holds exactly its
original content and not the claimed prefix. -/
theorem concat_gap_buffered_prefix_counterexample :
    (concat toDst6 srcC3 fsC3).2 = some "unexpected jump from 4 to 2" ∧
    (concat toDst6 srcC3 fsC3).1 "to.ridx" = some (encodeIndex [⟨0, 7⟩]) ∧
    (concat toDst6 srcC3 fsC3).1 "to.ridx" ≠
      some (encodeIndex [⟨0, 7⟩] ++ indexEntry.append ⟨6, 5⟩) := by
  refine ⟨by decide, by decide, by decide⟩

/-- C4: for every source content, offset and prefix written by the `before`
callback — the in-place case `srcPath = destPath` included, since nothing here
requires the two paths to differ — a successful `copyFrom` leaves the
destination file holding exactly the prefix followed by the source bytes from
`offset` on.  The temp name is fresh, as `ioutil.TempFile` guarantees, and the
`uint64` offset must survive the `int64` seek cast. -/
theorem copyFrom_replaces_content (fs : FS) (srcPath destPath : String) (offset : Nat)
    (before : Option (List Nat)) (tmp : String) (sc : List Nat)
    (hsrc : fs srcPath = some sc)
    (h1 : tmp ≠ srcPath) (h2 : tmp ≠ destPath)
    (hoff : offset < maxInt64) :
    (copyFrom fs srcPath destPath offset before tmp none).2 = none ∧
    (copyFrom fs srcPath destPath offset before tmp none).1 destPath =
      some (before.getD [] ++ sc.drop offset) := by
  constructor <;>
    simp [copyFrom, fsRename, Ne.symm h1, Ne.symm h2, hsrc, Nat.not_le.mpr hoff]

/-- C4 witness: in-place replacement (`srcPath = destPath = "s"`) at offset 1
with the prefix `[9, 8]` yields `[9, 8] ++ [2, 3, 4]`. -/
theorem copyFrom_replaces_content_witness :
    (copyFrom cfsW "s" "s" 1 (some [9, 8]) "tmp1" none).2 = none ∧
    (copyFrom cfsW "s" "s" 1 (some [9, 8]) "tmp1" none).1 "s" =
      some ((some [9, 8]).getD [] ++ List.drop 1 [1, 2, 3, 4]) :=
  copyFrom_replaces_content cfsW "s" "s" 1 (some [9, 8]) "tmp1" [1, 2, 3, 4]
    (by decide) (by decide) (by decide) (by decide)

/-- C5: every failure at a step before the final rename — temp-file creation,
the `before` callback, opening the source, the seek, the copy, or closing the
temp file — makes `copyFrom` return an error, removes the temporary file, and
leaves the whole filesystem (the destination path in particular) byte-for-byte
unchanged: the only externally observable mutation a call can make is the
single final rename. -/
theorem copyFrom_failure_leaves_fs_unchanged (fs : FS) (srcPath destPath : String)
    (offset : Nat) (before : Option (List Nat)) (tmp : String) (step : CopyStep)
    (htmp : fs tmp = none) (hstep : step ≠ CopyStep.rename) :
    ((copyFrom fs srcPath destPath offset before tmp (some step)).2).isSome = true ∧
    ∀ p, (copyFrom fs srcPath destPath offset before tmp (some step)).1 p = fs p := by
  cases step with
  | rename => exact absurd rfl hstep
  | tempCreate => exact ⟨rfl, fun p => rfl⟩
  | beforeCb =>
    constructor
    · simp [copyFrom]
    · intro p
      by_cases hp : p = tmp <;> simp [copyFrom, hp, htmp]
  | srcOpen =>
    constructor
    · by_cases hsp : srcPath = tmp <;> rcases hfs : fs srcPath with _ | sc <;>
        simp [copyFrom, hsp, hfs]
    · intro p
      by_cases hsp : srcPath = tmp <;> rcases hfs : fs srcPath with _ | sc <;>
        by_cases hp : p = tmp <;> simp [copyFrom, hsp, hfs, hp, htmp]
  | seek =>
    constructor
    · by_cases hsp : srcPath = tmp <;> rcases hfs : fs srcPath with _ | sc <;>
        by_cases ho : maxInt64 ≤ offset <;> simp [copyFrom, hsp, hfs, ho]
    · intro p
      by_cases hsp : srcPath = tmp <;> rcases hfs : fs srcPath with _ | sc <;>
        by_cases ho : maxInt64 ≤ offset <;> by_cases hp : p = tmp <;>
        simp [copyFrom, hsp, hfs, ho, hp, htmp]
  | copy =>
    constructor
    · by_cases hsp : srcPath = tmp <;> rcases hfs : fs srcPath with _ | sc <;>
        by_cases ho : maxInt64 ≤ offset <;> simp [copyFrom, hsp, hfs, ho]
    · intro p
      by_cases hsp : srcPath = tmp <;> rcases hfs : fs srcPath with _ | sc <;>
        by_cases ho : maxInt64 ≤ offset <;> by_cases hp : p = tmp <;>
        simp [copyFrom, hsp, hfs, ho, hp, htmp]
  | tempClose =>
    constructor
    · by_cases hsp : srcPath = tmp <;> rcases hfs : fs srcPath with _ | sc <;>
        by_cases ho : maxInt64 ≤ offset <;> simp [copyFrom, hsp, hfs, ho]
    · intro p
      by_cases hsp : srcPath = tmp <;> rcases hfs : fs srcPath with _ | sc <;>
        by_cases ho : maxInt64 ≤ offset <;> by_cases hp : p = tmp <;>
        simp [copyFrom, hsp, hfs, ho, hp, htmp]

/-- C5 witness: an injected failure of the copy step on a concrete filesystem
errors out and changes nothing. -/
theorem copyFrom_failure_leaves_fs_unchanged_witness :
    ((copyFrom cfsW "s" "d0" 0 none "tmp1" (some CopyStep.copy)).2).isSome = true ∧
    ∀ p, (copyFrom cfsW "s" "d0" 0 none "tmp1" (some CopyStep.copy)).1 p = cfsW p :=
  copyFrom_failure_leaves_fs_unchanged cfsW "s" "d0" 0 none "tmp1" CopyStep.copy
    (by decide) (by decide)

/-! ### Store-level helper lemmas -/

theorem pair_eta_of_snd_none {α : Type} (x : α × Option String) (h : x.2 = none) :
    x = (x.1, none) := by
  obtain ⟨a, b⟩ := x
  simp only at h
  rw [h]

theorem concatTables_cons_none (fr : freezer) (name : String) (totab : freezerTable)
    (rest : List (String × freezerTable)) (fs : FS)
    (h : lookupTable fr.tables name = none) :
    concatTables fr ((name, totab) :: rest) fs =
      (fs, some ("table " ++ name ++ " not in source freezer")) := by
  unfold concatTables
  rw [h]

theorem concatTables_cons_some (fr : freezer) (name : String) (totab fromtab : freezerTable)
    (rest : List (String × freezerTable)) (fs : FS)
    (h : lookupTable fr.tables name = some fromtab) :
    concatTables fr ((name, totab) :: rest) fs =
      match concat totab fromtab fs with
      | (fs1, some e) => (fs1, some ("concatenating tables " ++ name ++ ": " ++ e))
      | (fs1, none) => concatTables fr rest fs1 := by
  conv_lhs => rw [concatTables]
  rw [h]

theorem concatTables_cons_ok (fr : freezer) (name : String) (totab fromtab : freezerTable)
    (rest : List (String × freezerTable)) (fs fs1 : FS)
    (h : lookupTable fr.tables name = some fromtab)
    (hc : concat totab fromtab fs = (fs1, none)) :
    concatTables fr ((name, totab) :: rest) fs = concatTables fr rest fs1 := by
  rw [concatTables_cons_some fr name totab fromtab rest fs h, hc]

theorem concatTables_cons_err (fr : freezer) (name : String) (totab fromtab : freezerTable)
    (rest : List (String × freezerTable)) (fs fs1 : FS) (m : String)
    (h : lookupTable fr.tables name = some fromtab)
    (hc : concat totab fromtab fs = (fs1, some m)) :
    concatTables fr ((name, totab) :: rest) fs =
      (fs1, some ("concatenating tables " ++ name ++ ": " ++ m)) := by
  rw [concatTables_cons_some fr name totab fromtab rest fs h, hc]

theorem concatTables_append_of_ok (fr : freezer) (pre rest : List (String × freezerTable))
    (fs fs1 : FS) (h : concatTables fr pre fs = (fs1, none)) :
    concatTables fr (pre ++ rest) fs = concatTables fr rest fs1 := by
  induction pre generalizing fs with
  | nil =>
    simp only [concatTables] at h
    injection h with h1 h2
    rw [List.nil_append, h1]
  | cons pr pre ih =>
    obtain ⟨name, totab⟩ := pr
    rw [List.cons_append]
    cases hlk : lookupTable fr.tables name with
    | none =>
      rw [concatTables_cons_none fr name totab pre fs hlk] at h
      exact absurd h (by simp)
    | some fromtab =>
      cases hcc : concat totab fromtab fs with
      | mk fs2 e =>
        cases e with
        | some m =>
          rw [concatTables_cons_err fr name totab fromtab pre fs fs2 m hlk hcc] at h
          exact absurd h (by simp)
        | none =>
          rw [concatTables_cons_ok fr name totab fromtab pre fs fs2 hlk hcc] at h
          rw [concatTables_cons_ok fr name totab fromtab (pre ++ rest) fs fs2 hlk hcc]
          exact ih fs2 h

theorem concatTables_congr (fr fr' : freezer) (ts : List (String × freezerTable)) (fs : FS)
    (h : ∀ pr ∈ ts, lookupTable fr'.tables pr.1 = lookupTable fr.tables pr.1) :
    concatTables fr' ts fs = concatTables fr ts fs := by
  induction ts generalizing fs with
  | nil => rfl
  | cons pr rest ih =>
    obtain ⟨name, totab⟩ := pr
    have hlk := h ⟨name, totab⟩ (by simp)
    cases hfr : lookupTable fr.tables name with
    | none =>
      rw [concatTables_cons_none fr' name totab rest fs (hlk.trans hfr),
        concatTables_cons_none fr name totab rest fs hfr]
    | some fromtab =>
      cases hcc : concat totab fromtab fs with
      | mk fs1 e =>
        cases e with
        | some m =>
          rw [concatTables_cons_err fr' name totab fromtab rest fs fs1 m (hlk.trans hfr) hcc,
            concatTables_cons_err fr name totab fromtab rest fs fs1 m hfr hcc]
        | none =>
          rw [concatTables_cons_ok fr' name totab fromtab rest fs fs1 (hlk.trans hfr) hcc,
            concatTables_cons_ok fr name totab fromtab rest fs fs1 hfr hcc]
          exact ih fs1 (fun x hx => h x (by simp [hx]))

/-- C6: once every per-table `concat` has succeeded, `Concat` performs the two
directory-promotion renames — source root to `root ++ ".old"`, then
destination root to the source's original root — with the result of each
rename discarded, and returns success.  No hypothesis about the two roots is
needed: whether either rename succeeds or fails, the error component is
`none`. -/
theorem Concat_unchecked_promotion (toF fr : freezer) (fs fs1 : FS) (toh frh : freezerTable)
    (hmerge : concatTables fr toF.tables fs = (fs1, none))
    (hto : lookupTable toF.tables "headers" = some toh)
    (hfr : lookupTable fr.tables "headers" = some frh) :
    Concat toF fr fs =
      (((fsRename (((fsRename fs1 frh.path (frh.path ++ ".old")).toOption).getD fs1)
          toh.path frh.path).toOption).getD
        (((fsRename fs1 frh.path (frh.path ++ ".old")).toOption).getD fs1), none) := by
  unfold Concat
  rw [hmerge, hto, hfr]

/-- C6 witness: concrete stores whose single table merges successfully while
both promotion renames fail (no directory entries exist); `Concat` still
returns success. -/
theorem Concat_unchecked_promotion_witness : (Concat toFW frFW fsW).2 = none := by
  rw [Concat_unchecked_promotion toFW frFW fsW (concatTables frFW toFW.tables fsW).1 thW fhW
    (pair_eta_of_snd_none _ (by decide)) rfl rfl]

/-- C7: when a table name of the destination store is absent from the source
store and every table iterated before it merges successfully, `Concat` stops
at that table with the error naming it; the filesystem it returns is exactly
the state left by the earlier merges — nothing later is merged and nothing
already merged is rolled back. -/
theorem Concat_missing_table (toF fr : freezer) (fs fs1 : FS)
    (pre rest : List (String × freezerTable)) (nm : String) (tb : freezerTable)
    (htables : toF.tables = pre ++ (nm, tb) :: rest)
    (habsent : lookupTable fr.tables nm = none)
    (hpre : concatTables fr pre fs = (fs1, none)) :
    Concat toF fr fs = (fs1, some ("table " ++ nm ++ " not in source freezer")) := by
  unfold Concat
  rw [htables, concatTables_append_of_ok fr pre _ fs fs1 hpre]
  simp only [concatTables, habsent]

/-- C7 witness: destination tables `headers` then `bodies`, source holding
only `headers`: the `headers` merge succeeds, then `Concat` fails naming
`bodies`, returning the filesystem as left by the `headers` merge. -/
theorem Concat_missing_table_witness :
    Concat toF7W frFW fsW =
      ((concatTables frFW [("headers", thW)] fsW).1,
        some ("table " ++ "bodies" ++ " not in source freezer")) := by
  rw [Concat_missing_table toF7W frFW fsW (concatTables frFW [("headers", thW)] fsW).1
    [("headers", thW)] [] "bodies" tbodyW rfl rfl
    (pair_eta_of_snd_none _ (by decide))]

/-- C10: the per-table iteration of `Concat` covers only the destination
store's table names (plus the `headers` lookup used for the promotion paths),
so two source stores that agree on those lookups — in particular a store with
arbitrary extra tables absent from the destination — produce identical
outcomes: the extra tables are never merged, never renamed, and cause no
error. -/
theorem Concat_ignores_source_only_tables (toF fr fr' : freezer) (fs : FS)
    (h : ∀ pr ∈ toF.tables, lookupTable fr'.tables pr.1 = lookupTable fr.tables pr.1)
    (hh : lookupTable fr'.tables "headers" = lookupTable fr.tables "headers") :
    Concat toF fr' fs = Concat toF fr fs := by
  unfold Concat
  rw [concatTables_congr fr fr' toF.tables fs h, hh]

/-- C10 witness: adding a source-only table `extras` changes nothing, and the
merge with the extra table present still returns success. -/
theorem Concat_ignores_source_only_tables_witness :
    Concat toFW frXW fsW = Concat toFW frFW fsW ∧ (Concat toFW frXW fsW).2 = none := by
  constructor
  · exact Concat_ignores_source_only_tables toFW frFW frXW fsW
      (by
        intro pr hpr
        simp only [toFW, List.mem_singleton] at hpr
        subst hpr
        rfl)
      rfl
  · decide

/-- C8: a source table whose index holds zero records (fewer than
`indexEntrySize` bytes) makes the read loop terminate on the very first read —
end-of-file is the normal termination, not an error — so `concat` succeeds,
appends nothing to the destination index, and its only filesystem mutation is
the single rename of the source tail segment to the destination's name for
`headId + 1`. -/
theorem concat_empty_source_single_rename (toT fr : freezerTable) (fs : FS)
    (fc ic seg : List Nat)
    (hfc : fs fr.indexPath = some fc) (hlen : fc.length < 8)
    (hic : fs toT.indexPath = some ic)
    (hseg : fs (fr.fileName fr.tailId) = some seg) :
    (concat toT fr fs).2 = none ∧
    ∀ p, (concat toT fr fs).1 p =
      if p = toT.fileName (toT.headId + 1) then some seg
      else if p = fr.fileName fr.tailId then none else fs p := by
  have hfs0 : (fun q => if q = toT.indexPath then some ((fs toT.indexPath).getD []) else fs q)
      = fs := by
    funext q
    by_cases hq : q = toT.indexPath
    · rw [if_pos hq, hq, hic]
      rfl
    · rw [if_neg hq]
  have hents : entriesOf fc = [] := entriesOf_short fc hlen
  refine ⟨?_, fun p => ?_⟩ <;>
    simp [concat, hfc, hents, hfs0, concatLoop, bwFlush, fsRename, hseg]

/-- C8 witness: the concrete empty-index source table merges successfully,
moving only its tail segment file. -/
theorem concat_empty_source_single_rename_witness :
    (concat thW fhW fsW).2 = none ∧
    ∀ p, (concat thW fhW fsW).1 p =
      if p = thW.fileName (thW.headId + 1) then some [9]
      else if p = fhW.fileName fhW.tailId then none else fsW p :=
  concat_empty_source_single_rename thW fhW fsW [] [] [9]
    (by decide) (by decide) (by decide) (by decide)

/-! ### Small-step equations for concat's loop -/

theorem fsRename_of_none (fs : FS) (src dst : String) (h : fs src = none) :
    fsRename fs src dst =
      Except.error ("rename " ++ src ++ " " ++ dst ++ ": no such file") := by
  unfold fsRename
  rw [h]

theorem fsRename_of_some (fs : FS) (src dst : String) (c : List Nat) (h : fs src = some c) :
    fsRename fs src dst =
      Except.ok fun q => if q = dst then some c else if q = src then none else fs q := by
  unfold fsRename
  rw [h]

theorem fsRename_ok_ne (fs fs' : FS) (src dst p : String)
    (h : fsRename fs src dst = Except.ok fs') (hp1 : p ≠ dst) (hp2 : p ≠ src) :
    fs' p = fs p := by
  cases hc : fs src with
  | none =>
    rw [fsRename_of_none fs src dst hc] at h
    exact absurd h (by simp)
  | some c =>
    rw [fsRename_of_some fs src dst c hc] at h
    injection h with h1
    rw [← h1]
    simp only [if_neg hp1, if_neg hp2]

theorem appendFile_ne (fs : FS) (path p : String) (bs : List Nat) (hp : p ≠ path) :
    appendFile fs path bs p = fs p := by
  simp only [appendFile, if_neg hp]

theorem bwWrite_fs_ne (toIdx : String) (s : ConcatSt) (bs : List Nat) (p : String)
    (hp : p ≠ toIdx) : (bwWrite toIdx s bs).fs p = s.fs p := by
  unfold bwWrite
  by_cases hc : s.buf.length + bs.length ≤ bufWriterSize
  · rw [if_pos hc]
  · rw [if_neg hc]
    exact appendFile_ne _ _ _ _ hp

theorem bwWrite_some_eq (toIdx : String) (s : ConcatSt) (bs : List Nat) (X : List Nat)
    (hX : s.fs toIdx = some X) :
    ∃ Z, (bwWrite toIdx s bs).fs toIdx = some Z ∧
      Z ++ (bwWrite toIdx s bs).buf = X ++ s.buf ++ bs := by
  unfold bwWrite
  by_cases hc : s.buf.length + bs.length ≤ bufWriterSize
  · rw [if_pos hc]
    exact ⟨X, hX, by rw [List.append_assoc]⟩
  · rw [if_neg hc]
    refine ⟨X ++ (s.buf ++ bs.take (bufWriterSize - s.buf.length)), ?_, ?_⟩
    · simp only [appendFile, if_pos rfl, hX]
      rfl
    · simp only [List.append_assoc, List.take_append_drop]

theorem bwFlush_fs_ne (toIdx : String) (s : ConcatSt) (p : String) (hp : p ≠ toIdx) :
    (bwFlush toIdx s).fs p = s.fs p := by
  unfold bwFlush
  by_cases hb : s.buf = []
  · rw [if_pos hb]
  · rw [if_neg hb]
    exact appendFile_ne _ _ _ _ hp

theorem bwFlush_some (toIdx : String) (s : ConcatSt) (X : List Nat)
    (hX : s.fs toIdx = some X) :
    (bwFlush toIdx s).fs toIdx = some (X ++ s.buf) := by
  unfold bwFlush
  by_cases hb : s.buf = []
  · rw [if_pos hb, hb, List.append_nil, hX]
  · rw [if_neg hb]
    simp only [appendFile, if_pos rfl, hX]
    rfl

theorem bwFlush_toFileId (toIdx : String) (s : ConcatSt) :
    (bwFlush toIdx s).toFileId = s.toFileId := by
  unfold bwFlush
  by_cases hb : s.buf = []
  · rw [if_pos hb]
  · rw [if_neg hb]

theorem bwFlush_fromFileId (toIdx : String) (s : ConcatSt) :
    (bwFlush toIdx s).fromFileId = s.fromFileId := by
  unfold bwFlush
  by_cases hb : s.buf = []
  · rw [if_pos hb]
  · rw [if_neg hb]

theorem bwWrite_toFileId (toIdx : String) (s : ConcatSt) (bs : List Nat) :
    (bwWrite toIdx s bs).toFileId = s.toFileId := by
  unfold bwWrite
  by_cases hc : s.buf.length + bs.length ≤ bufWriterSize
  · rw [if_pos hc]
  · rw [if_neg hc]

theorem bwWrite_fromFileId (toIdx : String) (s : ConcatSt) (bs : List Nat) :
    (bwWrite toIdx s bs).fromFileId = s.fromFileId := by
  unfold bwWrite
  by_cases hc : s.buf.length + bs.length ≤ bufWriterSize
  · rw [if_pos hc]
  · rw [if_neg hc]

theorem concatStep_write (toT fr : freezerTable) (s : ConcatSt) (e : indexEntry)
    (h : e.filenum = s.fromFileId) :
    concatStep toT fr s e =
      (bwWrite toT.indexPath s ({ e with filenum := s.toFileId }).append, none) := by
  unfold concatStep
  rw [if_neg (not_not_intro h)]

theorem concatStep_rename_err (toT fr : freezerTable) (s : ConcatSt) (e : indexEntry)
    (m : String) (hb : e.filenum ≠ s.fromFileId)
    (hr : fsRename s.fs (fr.fileName s.fromFileId) (toT.fileName (s.toFileId + 1)) =
      Except.error m) :
    concatStep toT fr s e = (s, some m) := by
  unfold concatStep
  rw [if_pos hb]
  dsimp only
  rw [hr]

theorem concatStep_gap (toT fr : freezerTable) (s : ConcatSt) (e : indexEntry) (fsx : FS)
    (hb : e.filenum ≠ s.fromFileId)
    (hr : fsRename s.fs (fr.fileName s.fromFileId) (toT.fileName (s.toFileId + 1)) =
      Except.ok fsx)
    (hg : s.fromFileId ≠ e.filenum + 1) :
    concatStep toT fr s e =
      ({ s with toFileId := s.toFileId + 1, fs := fsx },
        some ("unexpected jump from " ++ toString e.filenum ++ " to " ++
          toString s.fromFileId)) := by
  unfold concatStep
  rw [if_pos hb]
  dsimp only
  rw [hr]
  dsimp only
  rw [if_pos hg]

theorem concatStep_boundary (toT fr : freezerTable) (s : ConcatSt) (e : indexEntry) (fsx : FS)
    (hb : e.filenum ≠ s.fromFileId)
    (hr : fsRename s.fs (fr.fileName s.fromFileId) (toT.fileName (s.toFileId + 1)) =
      Except.ok fsx)
    (hg : ¬s.fromFileId ≠ e.filenum + 1) :
    concatStep toT fr s e =
      (bwWrite toT.indexPath ⟨s.toFileId + 1, e.filenum, s.buf, fsx⟩
        ({ e with filenum := s.toFileId + 1 }).append, none) := by
  unfold concatStep
  rw [if_pos hb]
  dsimp only
  rw [hr]
  dsimp only
  rw [if_neg hg]

theorem concatLoop_cons_ok (toT fr : freezerTable) (e : indexEntry) (es : List indexEntry)
    (s s' : ConcatSt) (h : concatStep toT fr s e = (s', none)) :
    concatLoop toT fr (e :: es) s = concatLoop toT fr es s' := by
  conv_lhs => rw [concatLoop]
  rw [h]

theorem concatLoop_cons_err (toT fr : freezerTable) (e : indexEntry) (es : List indexEntry)
    (s s' : ConcatSt) (m : String) (h : concatStep toT fr s e = (s', some m)) :
    concatLoop toT fr (e :: es) s = (s', some m) := by
  conv_lhs => rw [concatLoop]
  rw [h]

theorem concat_as_match (toT fr : freezerTable) (fs : FS) :
    concat toT fr fs =
      match concatLoop toT fr (entriesOf ((fs fr.indexPath).getD []))
          ⟨toT.headId + 1, fr.tailId, [],
            fun q => if q = toT.indexPath then some ((fs toT.indexPath).getD []) else fs q⟩ with
      | (s, some m) => (s.fs, some m)
      | (s, none) =>
        match fsRename (bwFlush toT.indexPath s).fs
            (fr.fileName (bwFlush toT.indexPath s).fromFileId)
            (toT.fileName (bwFlush toT.indexPath s).toFileId) with
        | Except.error m => ((bwFlush toT.indexPath s).fs, some m)
        | Except.ok fs2 => (fs2, none) := rfl

theorem concatLoop_append_of_ok (toT fr : freezerTable) (xs ys : List indexEntry)
    (s s1 : ConcatSt) (h : concatLoop toT fr xs s = (s1, none)) :
    concatLoop toT fr (xs ++ ys) s = concatLoop toT fr ys s1 := by
  induction xs generalizing s with
  | nil =>
    simp only [concatLoop] at h
    injection h with h1 _
    rw [List.nil_append, h1]
  | cons e xs ih =>
    cases hstep : concatStep toT fr s e with
    | mk s' o =>
      cases o with
      | none =>
        rw [concatLoop_cons_ok toT fr e xs s s' hstep] at h
        rw [List.cons_append, concatLoop_cons_ok toT fr e (xs ++ ys) s s' hstep]
        exact ih s' h
      | some m =>
        rw [concatLoop_cons_err toT fr e xs s s' m hstep] at h
        exact absurd h (by simp)

theorem concatLoop_same_segment (toT fr : freezerTable) (es : List indexEntry) (s : ConcatSt)
    (hall : ∀ e ∈ es, e.filenum = s.fromFileId)
    (hroom : s.buf.length + 8 * es.length ≤ bufWriterSize) :
    concatLoop toT fr es s =
      ({ s with
          buf := s.buf ++ encodeIndex (es.map fun e => { e with filenum := s.toFileId }) },
        none) := by
  induction es generalizing s with
  | nil =>
    simp only [concatLoop, List.map_nil, encodeIndex, List.append_nil]
  | cons e es ih =>
    have he := hall e (by simp)
    have hstep := concatStep_write toT fr s e he
    have hbw : bwWrite toT.indexPath s ({ e with filenum := s.toFileId }).append
        = { s with buf := s.buf ++ ({ e with filenum := s.toFileId }).append } := by
      unfold bwWrite
      rw [if_pos]
      rw [length_entry_append]
      simp only [List.length_cons] at hroom
      omega
    rw [concatLoop_cons_ok toT fr e es s _ hstep, hbw]
    have h2 := ih { s with buf := s.buf ++ ({ e with filenum := s.toFileId }).append }
      (fun x hx => hall x (by simp [hx]))
      (by
        simp only [List.length_append, length_entry_append, List.length_cons] at hroom ⊢
        omega)
    rw [h2]
    simp only [List.map_cons, encodeIndex, List.append_assoc]

/-- C3, amended: for every source index consisting of `k ≤ 512` records in the
tail segment `t` followed by a record jumping to segment `t + d` with `d ≥ 2`,
`concat` fails with the gap error, but — contrary to the original claim — the
destination index file on disk is byte-for-byte unchanged: the `k` translated
records written before the gap are still in the unflushed 4096-byte writer
buffer when `concat` returns and are lost.  (Only when more than 512 records
precede the gap does any data reach the file, and then only in whole flushed
buffer chunks.) -/
theorem concat_gap_error_buffered (toT fr : freezerTable) (fs : FS) (t d goff : Nat)
    (offs : List Nat) (ic seg : List Nat)
    (ht : fr.tailId = t) (hk : offs.length ≤ 512) (hd : 2 ≤ d)
    (hfc : fs fr.indexPath =
      some (encodeIndex ((offs.map fun o => ⟨t, o⟩) ++ [⟨t + d, goff⟩])))
    (hb1 : t + d < 2 ^ 32) (hb2 : ∀ o ∈ offs, o < 2 ^ 32) (hb3 : goff < 2 ^ 32)
    (hic : fs toT.indexPath = some ic)
    (hseg : fs (fr.fileName t) = some seg)
    (hn1 : toT.indexPath ≠ fr.fileName t)
    (hn2 : toT.indexPath ≠ toT.fileName (toT.headId + 2)) :
    (concat toT fr fs).2 =
      some ("unexpected jump from " ++ toString (t + d) ++ " to " ++ toString t) ∧
    (concat toT fr fs).1 toT.indexPath = fs toT.indexPath := by
  have hfs0 : (fun q => if q = toT.indexPath then some ((fs toT.indexPath).getD []) else fs q)
      = fs := by
    funext q
    by_cases hq : q = toT.indexPath
    · rw [if_pos hq, hq, hic]
      rfl
    · rw [if_neg hq]
  have hents : entriesOf (encodeIndex ((offs.map fun o => ⟨t, o⟩) ++ [⟨t + d, goff⟩]))
      = (offs.map fun o => (⟨t, o⟩ : indexEntry)) ++ [⟨t + d, goff⟩] := by
    apply entriesOf_encodeIndex
    intro e he
    rcases List.mem_append.mp he with hm | hm
    · obtain ⟨o, ho, rfl⟩ := List.mem_map.mp hm
      exact ⟨show t < 2 ^ 32 by omega, show o < 2 ^ 32 from hb2 o ho⟩
    · rw [List.mem_singleton.mp hm]
      exact ⟨hb1, hb3⟩
  have hpre : concatLoop toT fr (offs.map fun o => ⟨t, o⟩) ⟨toT.headId + 1, t, [], fs⟩ =
      (⟨toT.headId + 1, t, encodeIndex (offs.map fun o => ⟨toT.headId + 1, o⟩), fs⟩, none) := by
    have h := concatLoop_same_segment toT fr (offs.map fun o => ⟨t, o⟩)
      ⟨toT.headId + 1, t, [], fs⟩
      (by
        intro e he
        obtain ⟨o, ho, rfl⟩ := List.mem_map.mp he
        rfl)
      (by
        simp only [List.length_nil, List.length_map, bufWriterSize]
        omega)
    rw [h]
    rw [List.map_map]
    rfl
  have hgapstep := concatStep_gap toT fr
    ⟨toT.headId + 1, t, encodeIndex (offs.map fun o => ⟨toT.headId + 1, o⟩), fs⟩
    ⟨t + d, goff⟩
    (fun q => if q = toT.fileName (toT.headId + 1 + 1) then some seg
      else if q = fr.fileName t then none else fs q)
    (show t + d ≠ t by omega)
    (fsRename_of_some fs (fr.fileName t) (toT.fileName (toT.headId + 1 + 1)) seg hseg)
    (show t ≠ t + d + 1 by omega)
  have hloop := concatLoop_append_of_ok toT fr (offs.map fun o => ⟨t, o⟩) [⟨t + d, goff⟩]
    ⟨toT.headId + 1, t, [], fs⟩ _ hpre
  rw [concatLoop_cons_err toT fr _ [] _ _ _ hgapstep] at hloop
  rw [concat_as_match, hfs0, hfc, Option.getD_some, ht, hents, hloop]
  constructor
  · rfl
  · simp only
    rw [if_neg hn2, if_neg hn1]

/-- C3 witness for the amended statement: one record in segment `2`, then a
jump to segment `4`; `concat` fails with the gap error and the destination
index file is unchanged. -/
theorem concat_gap_error_buffered_witness :
    (concat toDst6 srcC3 fsC3).2 =
      some ("unexpected jump from " ++ toString (2 + 2) ++ " to " ++ toString 2) ∧
    (concat toDst6 srcC3 fsC3).1 toDst6.indexPath = fsC3 toDst6.indexPath :=
  concat_gap_error_buffered toDst6 srcC3 fsC3 2 2 6 [5] (encodeIndex [⟨0, 7⟩]) [1]
    (by decide) (by decide) (by decide) (by decide) (by decide) (by decide) (by decide)
    (by decide) (by decide) (by decide) (by decide)

/-! ### Frame and content lemmas for C9 -/

theorem concatStep_fs_preserve (toT fr : freezerTable) (s : ConcatSt) (e : indexEntry)
    (p : String) (h1 : p ≠ toT.indexPath) (h2 : ∀ n, p ≠ fr.fileName n)
    (h3 : ∀ n, p ≠ toT.fileName n) :
    ((concatStep toT fr s e).1).fs p = s.fs p := by
  by_cases hb : e.filenum ≠ s.fromFileId
  · cases hr : fsRename s.fs (fr.fileName s.fromFileId) (toT.fileName (s.toFileId + 1)) with
    | error m => rw [concatStep_rename_err toT fr s e m hb hr]
    | ok fsx =>
      have hfsx : fsx p = s.fs p := fsRename_ok_ne s.fs fsx _ _ p hr (h3 _) (h2 _)
      by_cases hg : s.fromFileId ≠ e.filenum + 1
      · rw [concatStep_gap toT fr s e fsx hb hr hg]
        exact hfsx
      · rw [concatStep_boundary toT fr s e fsx hb hr hg]
        show (bwWrite toT.indexPath ⟨s.toFileId + 1, e.filenum, s.buf, fsx⟩
          ({ e with filenum := s.toFileId + 1 }).append).fs p = s.fs p
        rw [bwWrite_fs_ne _ _ _ _ h1]
        exact hfsx
  · rw [concatStep_write toT fr s e (not_not.mp hb)]
    exact bwWrite_fs_ne _ _ _ _ h1

theorem concatLoop_fs_preserve (toT fr : freezerTable) (es : List indexEntry) (s : ConcatSt)
    (p : String) (h1 : p ≠ toT.indexPath) (h2 : ∀ n, p ≠ fr.fileName n)
    (h3 : ∀ n, p ≠ toT.fileName n) :
    ((concatLoop toT fr es s).1).fs p = s.fs p := by
  induction es generalizing s with
  | nil => rfl
  | cons e es ih =>
    cases hstep : concatStep toT fr s e with
    | mk s' o =>
      have hs' : s'.fs p = s.fs p := by
        have h := concatStep_fs_preserve toT fr s e p h1 h2 h3
        rw [hstep] at h
        exact h
      cases o with
      | none =>
        rw [concatLoop_cons_ok toT fr e es s s' hstep]
        rw [ih s']
        exact hs'
      | some m =>
        rw [concatLoop_cons_err toT fr e es s s' m hstep]
        exact hs'

theorem concatStep_ok_shape (toT fr : freezerTable) (s : ConcatSt) (e : indexEntry)
    (s' : ConcatSt)
    (hto1 : ∀ n, toT.indexPath ≠ fr.fileName n) (hto2 : ∀ n, toT.indexPath ≠ toT.fileName n)
    (h : concatStep toT fr s e = (s', none)) :
    ∃ s2 : ConcatSt, s' = bwWrite toT.indexPath s2 ({ e with filenum := s2.toFileId }).append ∧
      s2.buf = s.buf ∧ s2.fs toT.indexPath = s.fs toT.indexPath := by
  by_cases hb : e.filenum ≠ s.fromFileId
  · cases hr : fsRename s.fs (fr.fileName s.fromFileId) (toT.fileName (s.toFileId + 1)) with
    | error m =>
      rw [concatStep_rename_err toT fr s e m hb hr] at h
      exact absurd h (by simp)
    | ok fsx =>
      by_cases hg : s.fromFileId ≠ e.filenum + 1
      · rw [concatStep_gap toT fr s e fsx hb hr hg] at h
        exact absurd h (by simp)
      · rw [concatStep_boundary toT fr s e fsx hb hr hg] at h
        injection h with hh _
        exact ⟨⟨s.toFileId + 1, e.filenum, s.buf, fsx⟩, hh.symm, rfl,
          fsRename_ok_ne s.fs fsx _ _ _ hr (hto2 _) (hto1 _)⟩
  · rw [concatStep_write toT fr s e (not_not.mp hb)] at h
    injection h with hh _
    exact ⟨s, hh.symm, rfl, rfl⟩

theorem concatLoop_content (toT fr : freezerTable) (es : List indexEntry) (s : ConcatSt)
    (s1 : ConcatSt) (X : List Nat)
    (hto1 : ∀ n, toT.indexPath ≠ fr.fileName n) (hto2 : ∀ n, toT.indexPath ≠ toT.fileName n)
    (hX : s.fs toT.indexPath = some X)
    (h : concatLoop toT fr es s = (s1, none)) :
    ∃ Y ts, s1.fs toT.indexPath = some Y ∧
      Y ++ s1.buf = X ++ s.buf ++ encodeIndex ts ∧
      ts.map (fun e => e.offset) = es.map (fun e => e.offset) := by
  induction es generalizing s X with
  | nil =>
    simp only [concatLoop] at h
    injection h with h1 _
    subst h1
    exact ⟨X, [], hX, by simp [encodeIndex], by simp⟩
  | cons e es ih =>
    cases hstep : concatStep toT fr s e with
    | mk s' o =>
      cases o with
      | some m =>
        rw [concatLoop_cons_err toT fr e es s s' m hstep] at h
        exact absurd h (by simp)
      | none =>
        rw [concatLoop_cons_ok toT fr e es s s' hstep] at h
        obtain ⟨s2, rfl, hbuf, hfs⟩ := concatStep_ok_shape toT fr s e s' hto1 hto2 hstep
        obtain ⟨Z, hZ1, hZ2⟩ := bwWrite_some_eq toT.indexPath s2
          ({ e with filenum := s2.toFileId }).append X (hfs.trans hX)
        obtain ⟨Y, ts, hY1, hY2, hY3⟩ := ih _ Z hZ1 h
        refine ⟨Y, { e with filenum := s2.toFileId } :: ts, hY1, ?_, ?_⟩
        · rw [hY2, hZ2, hbuf]
          simp only [encodeIndex, List.append_assoc]
        · simp only [List.map_cons, hY3]

/-- C9: whether `concat` succeeds or fails, the source table's index file is
only read (by positioned reads), never written or renamed, so its bytes are
unchanged; and on success the bytes appended to the destination index are the
encodings of the source records with only the segment-number field replaced —
every offset field is copied unchanged, in order.  The path hypotheses say the
two index files are distinct from each other and from the data-segment names,
which the freezer's naming scheme guarantees. -/
theorem concat_source_index_frame_and_offsets (toT fr : freezerTable) (fs : FS)
    (fc ic : List Nat)
    (hfc : fs fr.indexPath = some fc)
    (hic : fs toT.indexPath = some ic)
    (hfrto : fr.indexPath ≠ toT.indexPath)
    (hfr1 : ∀ n, fr.indexPath ≠ fr.fileName n)
    (hfr2 : ∀ n, fr.indexPath ≠ toT.fileName n)
    (hto1 : ∀ n, toT.indexPath ≠ fr.fileName n)
    (hto2 : ∀ n, toT.indexPath ≠ toT.fileName n) :
    (concat toT fr fs).1 fr.indexPath = fs fr.indexPath ∧
    ((concat toT fr fs).2 = none →
      ∃ ts : List indexEntry,
        (concat toT fr fs).1 toT.indexPath = some (ic ++ encodeIndex ts) ∧
        ts.map (fun e => e.offset) = (entriesOf fc).map (fun e => e.offset)) := by
  have hfs0 : (fun q => if q = toT.indexPath then some ((fs toT.indexPath).getD []) else fs q)
      = fs := by
    funext q
    by_cases hq : q = toT.indexPath
    · rw [if_pos hq, hq, hic]
      rfl
    · rw [if_neg hq]
  cases hloop : concatLoop toT fr (entriesOf fc) ⟨toT.headId + 1, fr.tailId, [], fs⟩ with
  | mk s1 o =>
    have hpres : s1.fs fr.indexPath = fs fr.indexPath := by
      have h := concatLoop_fs_preserve toT fr (entriesOf fc)
        ⟨toT.headId + 1, fr.tailId, [], fs⟩ fr.indexPath hfrto hfr1 hfr2
      rw [hloop] at h
      exact h
    cases o with
    | some m =>
      have hcv : concat toT fr fs = (s1.fs, some m) := by
        rw [concat_as_match, hfs0, hfc, Option.getD_some, hloop]
      rw [hcv]
      constructor
      · exact hpres
      · intro hcon
        exact absurd hcon (by simp)
    | none =>
      cases hren : fsRename (bwFlush toT.indexPath s1).fs
          (fr.fileName (bwFlush toT.indexPath s1).fromFileId)
          (toT.fileName (bwFlush toT.indexPath s1).toFileId) with
      | error m =>
        have hcv : concat toT fr fs = ((bwFlush toT.indexPath s1).fs, some m) := by
          rw [concat_as_match, hfs0, hfc, Option.getD_some, hloop]
          dsimp only
          rw [hren]
        rw [hcv]
        constructor
        · show (bwFlush toT.indexPath s1).fs fr.indexPath = fs fr.indexPath
          rw [bwFlush_fs_ne _ _ _ hfrto]
          exact hpres
        · intro hcon
          exact absurd hcon (by simp)
      | ok fs2 =>
        have hcv : concat toT fr fs = (fs2, none) := by
          rw [concat_as_match, hfs0, hfc, Option.getD_some, hloop]
          dsimp only
          rw [hren]
        rw [hcv]
        constructor
        · show fs2 fr.indexPath = fs fr.indexPath
          rw [fsRename_ok_ne _ fs2 _ _ _ hren (hfr2 _) (hfr1 _)]
          rw [bwFlush_fs_ne _ _ _ hfrto]
          exact hpres
        · intro _
          obtain ⟨Y, ts, hY1, hY2, hY3⟩ := concatLoop_content toT fr (entriesOf fc)
            ⟨toT.headId + 1, fr.tailId, [], fs⟩ s1 ic hto1 hto2 hic hloop
          refine ⟨ts, ?_, hY3⟩
          show fs2 toT.indexPath = some (ic ++ encodeIndex ts)
          rw [fsRename_ok_ne _ fs2 _ _ _ hren (hto2 _) (hto1 _)]
          rw [bwFlush_some toT.indexPath s1 Y hY1]
          rw [hY2]
          simp

/-- C9 witness: a two-record single-segment source merges successfully; the
source index is unchanged and the two appended records carry the source
offsets `11` and `22`. -/
theorem concat_source_index_frame_and_offsets_witness :
    (concat toC9 frC9 fsC9).1 frC9.indexPath = fsC9 frC9.indexPath ∧
    ((concat toC9 frC9 fsC9).2 = none →
      ∃ ts : List indexEntry,
        (concat toC9 frC9 fsC9).1 toC9.indexPath =
          some (encodeIndex [⟨0, 7⟩] ++ encodeIndex ts) ∧
        ts.map (fun e => e.offset) =
          (entriesOf (encodeIndex [⟨4, 11⟩, ⟨4, 22⟩])).map (fun e => e.offset)) :=
  concat_source_index_frame_and_offsets toC9 frC9 fsC9
    (encodeIndex [⟨4, 11⟩, ⟨4, 22⟩]) (encodeIndex [⟨0, 7⟩])
    (by decide) (by decide) (by decide)
    (fun _ => show "fr9.ridx" ≠ "frdir9/seg" by decide)
    (fun _ => show "fr9.ridx" ≠ "todir9/seg" by decide)
    (fun _ => show "to9.ridx" ≠ "frdir9/seg" by decide)
    (fun _ => show "to9.ridx" ≠ "todir9/seg" by decide)

end FreezerSpec
